import Mathlib

set_option linter.unusedVariables false

/-! Verification of the collation core in src/p/go.text/collate/collate.go.

The collate package depends on the colltab package (collation elements,
levels, the Weigher interface), which is not among the sources; those
auxiliary notions are modelled from the specification and marked as such.
Everything else is a direct translation of collate.go.  Go's unbounded
loops are rendered as fuel-indexed structural recursions; the chosen fuel
values are proved sufficient under the documented Weigher contract.
Inputs are byte sequences modelled as `List Nat`. -/

/-- Modelled from the spec: a collation element (colltab.Elem, absent from
src/) decomposes into primary, secondary, tertiary and quaternary weights
plus the canonical combining class of the originating codepoint. -/
structure Elem where
  Primary : Nat
  Secondary : Nat
  Tertiary : Nat
  Quaternary : Nat
  CCC : Nat
deriving DecidableEq

/-- Modelled from the spec: the sentinel element IGNORE has all weights zero
(colltab.Ignore). -/
def Ignore : Elem := ⟨0, 0, 0, 0, 0⟩

/-- Modelled from the spec: sentinel for the largest quaternary value; it
encodes to the single byte 0xFF at key time (colltab.MaxQuaternary). -/
def MaxQuaternary : Nat := 0x1FFFFF

/-- Modelled from the spec: a quaternary-only element carrying p as its
quaternary weight (colltab.MakeQuaternary). -/
def MakeQuaternary (p : Nat) : Elem := ⟨0, 0, 0, p, 0⟩

/-- Modelled from the spec: colltab.Level is an integer-valued strength
level, ordered Primary < Secondary < Tertiary < Quaternary < Identity. -/
abbrev Level := Nat

def Level.Primary : Level := 0

def Level.Secondary : Level := 1

def Level.Tertiary : Level := 2

def Level.Quaternary : Level := 3

def Level.Identity : Level := 4

/-- AlternateHandling, an integer as in collate.go. -/
abbrev AlternateHandling := Nat

def AltNonIgnorable : AlternateHandling := 0

def AltBlanked : AlternateHandling := 1

def AltShifted : AlternateHandling := 2

def AltShiftTrimmed : AlternateHandling := 3

/-- Modelled from the spec: the Weigher interface (colltab.Weigher, absent
from src/).  Top is the largest primary considered variable; AppendNext
yields the collation elements for a prefix of the input together with the
number of bytes consumed. -/
structure Weigher where
  Top : Nat
  AppendNext : List Nat → List Elem × Nat

/-- The Weigher contract from the spec: on non-empty input, AppendNext
emits at least one element and consumes at least one byte (and at most the
whole input). -/
def WeigherOK (w : Weigher) : Prop :=
  ∀ s : List Nat, s ≠ [] →
    (w.AppendNext s).1 ≠ [] ∧ 1 ≤ (w.AppendNext s).2 ∧ (w.AppendNext s).2 ≤ s.length

/-- The Collator configuration record of collate.go (the norm.Form and
sorter fields, unused by the compare/key algorithms, are omitted; the two
embedded iterators are passed explicitly instead). -/
structure Collator where
  Strength : Level
  Alternate : AlternateHandling
  Backwards : Bool
  HiraganaQuaternary : Bool
  CaseLevel : Bool
  Numeric : Bool
  variableTop : Nat
  t : Weigher

/-- Option flag bits of collate.go. -/
abbrev COption := Nat

def Numeric : COption := 1

def IgnoreCase : COption := 2

def IgnoreDiacritics : COption := 4

def IgnoreWidth : COption := 8

def UpperFirst : COption := 16

def LowerFirst : COption := 32

def Force : COption := 64

def Loose : COption := IgnoreDiacritics ||| IgnoreWidth ||| IgnoreCase

/-- SetOptions as implemented in collate.go: the body is an unimplemented
TODO and performs no mutation at all. -/
def Collator.SetOptions (c : Collator) (o : COption) : Collator := c

/-- NewFromTable from collate.go: defaults Strength = Tertiary, variableTop
from the Weigher, everything else zero. -/
def NewFromTable (w : Weigher) : Collator :=
  { Strength := Level.Tertiary
    Alternate := AltNonIgnorable
    Backwards := false
    HiraganaQuaternary := false
    CaseLevel := false
    Numeric := false
    variableTop := w.Top
    t := w }

/-- Lexicographic byte comparison, bytes.Compare of the Go standard
library. -/
def bytesCompare : List Nat → List Nat → Int
  | [], [] => 0
  | [], _ :: _ => -1
  | _ :: _, [] => 1
  | a :: as, b :: bs => if a < b then -1 else if b < a then 1 else bytesCompare as bs

/-- The iterator state of collate.go (struct iter).  The remaining input
takes the place of the bytes/str fields; the Weigher is passed to the
operations explicitly rather than stored. -/
structure Iter where
  input : List Nat
  ce : List Elem
  pce : Nat
  nce : Nat
  prevCCC : Nat
  pStarter : Nat
deriving DecidableEq

/-- A freshly initialised iterator (iter.init). -/
def mkIter : Iter := ⟨[], [], 0, 0, 0, 0⟩

/-- iter.reset from collate.go: clears ce, nce, prevCCC and pStarter.
Note that pce is not touched. -/
def Iter.reset (i : Iter) : Iter :=
  { i with ce := [], nce := 0, prevCCC := 0, pStarter := 0 }

/-- iter.setInput: store the new input and reset. -/
def Iter.setInput (i : Iter) (s : List Nat) : Iter :=
  Iter.reset { i with input := s }

/-- iter.done. -/
def Iter.done (i : Iter) : Prop := i.input = []

instance (i : Iter) : Decidable i.done := by
  unfold Iter.done
  infer_instance

/-- iter.tail: drop the n consumed bytes. -/
def Iter.tail (i : Iter) (n : Nat) : Iter := { i with input := i.input.drop n }

/-- iter.appendNext: extend the element buffer by one Weigher call and
report the bytes consumed. -/
def Iter.appendNextM (w : Weigher) (i : Iter) : Iter × Nat :=
  ({ i with ce := i.ce ++ (w.AppendNext i.input).1 }, (w.AppendNext i.input).2)

def maxCombiningCharacters : Nat := 30

/-- The backward walk of iter.doNorm: starting from p, decrement while
p > pStarter and ccc < ce[p-1].CCC.  The first argument is fuel; any fuel
of at least p yields the loop's final index. -/
def walkBack (ce : List Elem) (pStarter ccc : Nat) : Nat → Nat → Nat
  | 0, p => p
  | f + 1, p =>
    if pStarter < p ∧ ccc < (ce.getD (p - 1) Ignore).CCC then
      walkBack ce pStarter ccc f (p - 1)
    else p

/-- iter.doNorm from collate.go: either promote a new starter when more
than maxCombiningCharacters elements accumulated since the last starter, or
rotate the newly appended block ce[p..] in front of the trailing elements of
larger combining class.  Go's `for p--; cond; p--` loop starts the walk at
p-1. -/
def Iter.doNorm (i : Iter) (p ccc : Nat) : Iter :=
  if p - i.pStarter > maxCombiningCharacters then
    { i with
      prevCCC := (i.ce.getD (i.ce.length - 1) Ignore).CCC
      pStarter := i.ce.length - 1 }
  else
    let k := p
    let p1 := walkBack i.ce i.pStarter ccc p (p - 1)
    { i with ce := i.ce.take p1 ++ i.ce.drop k ++ (i.ce.take k).drop p1 }

/-- The forward scan in iter.next's second branch: advance q while q < last
and ce[q].CCC = 0.  Fuel-indexed; fuel last suffices. -/
def scanS (ce : List Elem) (last : Nat) : Nat → Nat → Nat
  | 0, q => q
  | f + 1, q =>
    if q < last ∧ (ce.getD q Ignore).CCC = 0 then scanS ce last f (q + 1) else q

/-- One non-done iteration of iter.next's loop: consult the Weigher,
advance the input and either release elements (Sum.inl, the return
branches) or hand back the updated state for another round (Sum.inr, the
doNorm and prevCCC branches). -/
def nextIter1 (w : Weigher) (i : Iter) : (Bool × Iter) ⊕ Iter :=
  let p0 := i.ce.length
  let a := Iter.appendNextM w i
  let i2 := a.1.tail a.2
  let last := i2.ce.length - 1
  let ccc := (i2.ce.getD last Ignore).CCC
  if ccc = 0 then
    Sum.inl (true, { i2 with nce := i2.ce.length, pStarter := last, prevCCC := 0 })
  else if p0 < last ∧ (i2.ce.getD p0 Ignore).CCC = 0 then
    Sum.inl (true,
      { i2 with
        nce := scanS i2.ce last last (p0 + 1)
        pStarter := scanS i2.ce last last (p0 + 1) - 1
        prevCCC := ccc })
  else if ccc < i2.prevCCC then Sum.inr (i2.doNorm p0 ccc)
  else Sum.inr { i2 with prevCCC := ccc }

/-- iter.next from collate.go, fuel-indexed: fill the buffer until at least
one additional canonically ordered element is available.  A fuel of
input.length + 1 is sufficient under the Weigher contract. -/
def Iter.nextF (w : Weigher) : Nat → Iter → Bool × Iter
  | 0, i => (false, i)
  | fuel + 1, i =>
    if i.done then
      if i.ce.length ≠ i.nce then (true, { i with nce := i.ce.length }) else (false, i)
    else
      match nextIter1 w i with
      | Sum.inl r => r
      | Sum.inr j => Iter.nextF w fuel j

/-- The common shape of the level walkers: scan indices from pce while
pce < len, returning the first non-zero weight (and the cursor just past
it), or 0 with the cursor at len.  Fuel len suffices. -/
def scanW (val : Nat → Nat) (len : Nat) : Nat → Nat → Nat × Nat
  | 0, pce => (0, pce)
  | f + 1, pce =>
    if pce < len then
      if val pce ≠ 0 then (val pce, pce + 1) else scanW val len f (pce + 1)
    else (0, pce)

/-- The buffered part of iter.nextPrimary: scan ce[..nce] from pce. -/
def Iter.nextPrimaryScan (i : Iter) : Nat × Iter :=
  let r := scanW (fun j => (i.ce.getD j Ignore).Primary) i.nce i.nce i.pce
  (r.1, { i with pce := r.2 })

/-- iter.nextPrimary, fuel-indexed: scan the released window and pump
next() when it is exhausted.  A fuel of 2 * input.length + 2 is sufficient
under the Weigher contract. -/
def Iter.nextPrimaryF (w : Weigher) : Nat → Iter → Nat × Iter
  | 0, i => (0, i)
  | fuel + 1, i =>
    let r := i.nextPrimaryScan
    if r.1 ≠ 0 then r
    else
      let n := Iter.nextF w (r.2.input.length + 1) r.2
      if n.1 then Iter.nextPrimaryF w fuel n.2 else (0, n.2)

/-- iter.nextSecondary: forward scan of the secondary weights over the
whole buffer. -/
def Iter.nextSecondary (i : Iter) : Nat × Iter :=
  let r := scanW (fun j => (i.ce.getD j Ignore).Secondary) i.ce.length i.ce.length i.pce
  (r.1, { i with pce := r.2 })

/-- The element index read by iter.prevSecondary at cursor value j:
len(ce) - j - 1. -/
def prevSecIndex (i : Iter) (j : Nat) : Nat := i.ce.length - j - 1

/-- iter.prevSecondary: reverse scan of the secondary weights, reading
index len(ce) - pce - 1 while pce < len(ce). -/
def Iter.prevSecondary (i : Iter) : Nat × Iter :=
  let r := scanW (fun j => (i.ce.getD (prevSecIndex i j) Ignore).Secondary)
    i.ce.length i.ce.length i.pce
  (r.1, { i with pce := r.2 })

/-- iter.nextTertiary. -/
def Iter.nextTertiary (i : Iter) : Nat × Iter :=
  let r := scanW (fun j => (i.ce.getD j Ignore).Tertiary) i.ce.length i.ce.length i.pce
  (r.1, { i with pce := r.2 })

/-- iter.nextQuaternary. -/
def Iter.nextQuaternary (i : Iter) : Nat × Iter :=
  let r := scanW (fun j => (i.ce.getD j Ignore).Quaternary) i.ce.length i.ce.length i.pce
  (r.1, { i with pce := r.2 })

/-- Total number of collation elements the Weigher emits while consuming
the input, fuel-indexed; input.length + 1 fuel suffices under the
contract.  Used only to compute sufficient fuel for the comparison
loops. -/
def elemsF (w : Weigher) : Nat → List Nat → Nat
  | 0, _ => 0
  | f + 1, s =>
    if s = [] then 0
    else (w.AppendNext s).1.length + elemsF w f (s.drop (w.AppendNext s).2)

def elemsTot (w : Weigher) (s : List Nat) : Nat := elemsF w (s.length + 1) s

/-- A bound on an iterator's element-buffer growth: current buffer size
plus everything the remaining input can still produce. -/
def iterN (w : Weigher) (i : Iter) : Nat := i.ce.length + elemsTot w i.input

/-- compareLevel's loop from collate.go: step both walkers in lockstep
until a mismatch decides, or both return 0.  Fuel-indexed. -/
def compareLevelLoop (f : Iter → Nat × Iter) : Nat → Iter → Iter → Int × Iter × Iter
  | 0, a, b => (0, a, b)
  | fuel + 1, a, b =>
    let ra := f a
    let rb := f b
    if ra.1 ≠ rb.1 then
      if ra.1 < rb.1 then (-1, ra.2, rb.2) else (1, ra.2, rb.2)
    else if ra.1 = 0 then (0, ra.2, rb.2)
    else compareLevelLoop f fuel ra.2 rb.2

/-- compareLevel from collate.go: zero both cursors, then loop. -/
def compareLevel (f : Iter → Nat × Iter) (fuel : Nat) (a b : Iter) : Int × Iter × Iter :=
  compareLevelLoop f fuel { a with pce := 0 } { b with pce := 0 }

/-- One level of Collator.compare: pass through an already decided result,
otherwise run compareLevel when the level is enabled. -/
def levelStep (cond : Prop) [Decidable cond] (f : Iter → Nat × Iter) (fuel : Nat)
    (t : Int × Iter × Iter) : Int × Iter × Iter :=
  if t.1 ≠ 0 then t else if cond then compareLevel f fuel t.2.1 t.2.2 else t

/-- Collator.compare from collate.go with explicit level fuel: primary
(skipped entirely when Alternate == AltShifted, the TODO branch), then
secondary (reverse walker when Backwards), tertiary (also with CaseLevel)
and quaternary. -/
def Collator.compareIterF (c : Collator) (fb : Nat) (a b : Iter) : Int × Iter × Iter :=
  levelStep ((Level.Tertiary ≤ c.Strength ∨ c.CaseLevel) ∧ Level.Quaternary ≤ c.Strength)
    Iter.nextQuaternary fb
    (levelStep (Level.Tertiary ≤ c.Strength ∨ c.CaseLevel) Iter.nextTertiary fb
      (levelStep (Level.Secondary ≤ c.Strength)
        (if c.Backwards then Iter.prevSecondary else Iter.nextSecondary) fb
        (levelStep (¬c.Alternate = AltShifted)
          (fun i => Iter.nextPrimaryF c.t (2 * i.input.length + 2) i) fb
          (0, a, b))))

/-- Sufficient common fuel for all levels of one comparison, symmetric in
the two iterators. -/
def cmpFuel (w : Weigher) (a b : Iter) : Nat := iterN w a + iterN w b + 2

def Collator.compareIter (c : Collator) (a b : Iter) : Int × Iter × Iter :=
  c.compareIterF (cmpFuel c.t a b) a b

/-- Collator.Compare from collate.go with explicit fuel, threading the two
stored iterators and returning their final states alongside the result:
set the inputs, run the level comparison, then the Identity-strength
bytewise fallback. -/
def Collator.CompareStF (c : Collator) (fb : Nat) (i0 i1 : Iter) (a b : List Nat) :
    Int × Iter × Iter :=
  let r := c.compareIterF fb (Iter.setInput i0 a) (Iter.setInput i1 b)
  if r.1 ≠ 0 then r
  else if c.Strength = Level.Identity then (bytesCompare a b, r.2.1, r.2.2)
  else (0, r.2.1, r.2.2)

def Collator.CompareSt (c : Collator) (i0 i1 : Iter) (a b : List Nat) : Int × Iter × Iter :=
  c.CompareStF (cmpFuel c.t (Iter.setInput i0 a) (Iter.setInput i1 b)) i0 i1 a b

/-- Collator.Compare: the comparison result on two byte sequences. -/
def Collator.Compare (c : Collator) (a b : List Nat) : Int :=
  (c.CompareSt mkIter mkIter a b).1

/-- Collator.CompareF: Collator.Compare with explicit level fuel; used to
state that the built-in fuel is sufficient. -/
def Collator.CompareF (c : Collator) (fb : Nat) (a b : List Nat) : Int :=
  (c.CompareStF fb mkIter mkIter a b).1

/-- The loop of Collator.getColElems: run next() until it returns false.
Fuel-indexed; 2 * input.length + 2 suffices under the contract. -/
def runNext (w : Weigher) : Nat → Iter → Iter
  | 0, i => i
  | fuel + 1, i =>
    let n := Iter.nextF w (i.input.length + 1) i
    if n.1 then runNext w fuel n.2 else n.2

def Collator.getColElemsF (c : Collator) (fuel : Nat) (s : List Nat) : List Elem :=
  (runNext c.t fuel (Iter.setInput mkIter s)).ce

/-- Collator.getColElems from collate.go. -/
def Collator.getColElems (c : Collator) (s : List Nat) : List Elem :=
  c.getColElemsF (2 * s.length + 2) s

/-- processWeights' loop body for AltShifted / AltShiftTrimmed, iterating
the array by index exactly as the Go range loop does. -/
def pwShiftedLoop (vtop : Nat) : Nat → Nat → Bool → List Elem → List Elem
  | 0, _, _, wa => wa
  | f + 1, i, ignore, wa =>
    if i < wa.length then
      if (wa.getD i Ignore).Primary ≤ vtop ∧ (wa.getD i Ignore).Primary ≠ 0 then
        pwShiftedLoop vtop f (i + 1) true (wa.set i (MakeQuaternary (wa.getD i Ignore).Primary))
      else if (wa.getD i Ignore).Primary = 0 then
        pwShiftedLoop vtop f (i + 1) ignore (if ignore then wa.set i Ignore else wa)
      else pwShiftedLoop vtop f (i + 1) false wa
    else wa

/-- processWeights' loop body for AltBlanked. -/
def pwBlankedLoop (vtop : Nat) : Nat → Nat → Bool → List Elem → List Elem
  | 0, _, _, wa => wa
  | f + 1, i, ignore, wa =>
    if i < wa.length then
      if (wa.getD i Ignore).Primary ≤ vtop ∧ (ignore ∨ (wa.getD i Ignore).Primary ≠ 0) then
        pwBlankedLoop vtop f (i + 1) true (wa.set i Ignore)
      else pwBlankedLoop vtop f (i + 1) false wa
    else wa

/-- processWeights from collate.go. -/
def processWeights (vw : AlternateHandling) (top : Nat) (wa : List Elem) : List Elem :=
  if vw = AltShifted ∨ vw = AltShiftTrimmed then pwShiftedLoop top wa.length 0 false wa
  else if vw = AltBlanked then pwBlankedLoop top wa.length 0 false wa
  else wa

/-- appendPrimary from collate.go: variable length big-endian encoding of a
primary weight, two bytes up to 0x7FFF, three bytes (with continuation
marker) above. -/
def appendPrimary (key : List Nat) (p : Nat) : List Nat :=
  if p ≤ 0x7FFF then key ++ [(p >>> 8) % 256, p % 256]
  else key ++ [((p >>> 16) % 256) ||| 0x80, (p >>> 8) % 256, p % 256]

/-- The AltShiftTrimmed quaternary loop of keyFromElems, carrying the key
under construction and lastNonFFFF, the length up to which the key is kept
at the end. -/
def quatTrimLoop : List Elem → List Nat × Nat → List Nat × Nat
  | [], acc => acc
  | v :: rest, acc =>
    if v.Quaternary = MaxQuaternary then quatTrimLoop rest (acc.1 ++ [0xFF], acc.2)
    else if 0 < v.Quaternary then
      quatTrimLoop rest (appendPrimary acc.1 v.Quaternary, (appendPrimary acc.1 v.Quaternary).length)
    else quatTrimLoop rest acc

/-- Collator.keyFromElems from collate.go: append the primary section, a
0x00 0x00 separator and the secondary section when Strength allows (or a
bare separator for CaseLevel), a 0x00 0x00 separator and the tertiary
section, and then — under AltShifted/AltShiftTrimmed at Quaternary
strength — a single 0x00 followed by the quaternary section, with
AltShiftTrimmed truncating everything after the last non-0xFF position. -/
def Collator.keyFromElems (c : Collator) (key : List Nat) (ws : List Elem) : List Nat :=
  let k1 := ws.foldl (fun k v => if 0 < v.Primary then appendPrimary k v.Primary else k) key
  let k2 :=
    if Level.Secondary ≤ c.Strength then
      if c.Backwards then
        ws.reverse.foldl
          (fun k v => if 0 < v.Secondary then k ++ [(v.Secondary >>> 8) % 256, v.Secondary % 256] else k)
          (k1 ++ [0, 0])
      else
        ws.foldl
          (fun k v => if 0 < v.Secondary then k ++ [(v.Secondary >>> 8) % 256, v.Secondary % 256] else k)
          (k1 ++ [0, 0])
    else if c.CaseLevel then k1 ++ [0, 0]
    else k1
  if Level.Tertiary ≤ c.Strength ∨ c.CaseLevel then
    let k3 := ws.foldl (fun k v => if 0 < v.Tertiary then k ++ [v.Tertiary % 256] else k) (k2 ++ [0, 0])
    if Level.Quaternary ≤ c.Strength ∧ AltShifted ≤ c.Alternate then
      if c.Alternate = AltShiftTrimmed then
        (quatTrimLoop ws (k3 ++ [0], k3.length)).1.take (quatTrimLoop ws (k3 ++ [0], k3.length)).2
      else
        ws.foldl
          (fun k v =>
            if v.Quaternary = MaxQuaternary then k ++ [0xFF]
            else if 0 < v.Quaternary then appendPrimary k v.Quaternary else k)
          (k3 ++ [0])
    else k3
  else k2

/-- Collator.key from collate.go: process the variable weights, then encode
(the appended slice is returned, so the model starts from the empty
key). -/
def Collator.keyElems (c : Collator) (ws : List Elem) : List Nat :=
  c.keyFromElems [] (processWeights c.Alternate c.t.Top ws)

/-- Collator.Key with explicit iteration fuel. -/
def Collator.KeyF (c : Collator) (fuel : Nat) (s : List Nat) : List Nat :=
  c.keyElems (c.getColElemsF fuel s)

/-- Collator.Key from collate.go: the sort key of one input. -/
def Collator.Key (c : Collator) (s : List Nat) : List Nat :=
  c.keyElems (c.getColElems s)

/-! Specification-side reference definitions, used to state refinement
claims against the code translations above, and concrete instances used by
witnesses and counterexamples. -/

/-- The §4.5 reference scan for Shifted/ShiftTrimmed, written exactly after
the specification's words: a variable (0 < p ≤ vtop) becomes a
quaternary-only element and sets the ignore flag, a primary ignorable is
replaced by IGNORE while the flag is set, and any non-variable primary
clears the flag. -/
def pwShiftedSpec (vtop : Nat) : Bool → List Elem → List Elem
  | _, [] => []
  | ignore, v :: rest =>
    if 0 < v.Primary ∧ v.Primary ≤ vtop then
      MakeQuaternary v.Primary :: pwShiftedSpec vtop true rest
    else if v.Primary = 0 then (if ignore then Ignore else v) :: pwShiftedSpec vtop ignore rest
    else v :: pwShiftedSpec vtop false rest

/-- The §4.5 reference scan for Blanked: variables and following primary
ignorables become IGNORE outright. -/
def pwBlankedSpec (vtop : Nat) : Bool → List Elem → List Elem
  | _, [] => []
  | ignore, v :: rest =>
    if 0 < v.Primary ∧ v.Primary ≤ vtop then Ignore :: pwBlankedSpec vtop true rest
    else if v.Primary = 0 ∧ ignore then Ignore :: pwBlankedSpec vtop true rest
    else v :: pwBlankedSpec vtop false rest

/-- The §4.5 variable processing as the specification states it, with no
transformation under NonIgnorable (or any other handling value). -/
def processWeightsSpec (vw : AlternateHandling) (top : Nat) (wa : List Elem) : List Elem :=
  if vw = AltShifted ∨ vw = AltShiftTrimmed then pwShiftedSpec top false wa
  else if vw = AltBlanked then pwBlankedSpec top false wa
  else wa

/-- The byte encoding of one primary weight (the bytes appendPrimary
appends). -/
def priBytes (p : Nat) : List Nat :=
  if p ≤ 0x7FFF then [(p >>> 8) % 256, p % 256]
  else [((p >>> 16) % 256) ||| 0x80, (p >>> 8) % 256, p % 256]

/-- The primary section of a sort key. -/
def primarySection : List Elem → List Nat
  | [] => []
  | v :: ws => (if 0 < v.Primary then priBytes v.Primary else []) ++ primarySection ws

/-- The secondary weight bytes of a window, in the order given. -/
def secBytes : List Elem → List Nat
  | [] => []
  | v :: ws =>
    (if 0 < v.Secondary then [(v.Secondary >>> 8) % 256, v.Secondary % 256] else []) ++
      secBytes ws

/-- The secondary section: reversed window when Backwards. -/
def secondarySection (c : Collator) (ws : List Elem) : List Nat :=
  if c.Backwards then secBytes ws.reverse else secBytes ws

/-- The tertiary section of a sort key. -/
def tertiarySection : List Elem → List Nat
  | [] => []
  | v :: ws => (if 0 < v.Tertiary then [v.Tertiary % 256] else []) ++ tertiarySection ws

/-- The quaternary weight bytes: 0xFF for MaxQuaternary, the primary
encoding for other non-zero quaternaries. -/
def quatBytes : List Elem → List Nat
  | [] => []
  | v :: ws =>
    (if v.Quaternary = MaxQuaternary then [0xFF]
     else if 0 < v.Quaternary then priBytes v.Quaternary else []) ++ quatBytes ws

/-- The AltShiftTrimmed quaternary bytes: everything after the last
non-0xFF chunk is dropped, and a suffix consisting only of 0xFF chunks (or
nothing) trims to nothing at all. -/
def quatTrimSpec : List Elem → List Nat
  | [] => []
  | v :: rest =>
    if v.Quaternary = MaxQuaternary then
      if quatTrimSpec rest = [] then [] else 0xFF :: quatTrimSpec rest
    else if 0 < v.Quaternary then priBytes v.Quaternary ++ quatTrimSpec rest
    else quatTrimSpec rest

/-- The quaternary part of a sort key, including the single 0x00 byte that
precedes it when present; empty when the strength or alternate handling
disables it, and also empty under AltShiftTrimmed when every quaternary
weight is MaxQuaternary or zero. -/
def quatSection (c : Collator) (ws : List Elem) : List Nat :=
  if Level.Quaternary ≤ c.Strength ∧ AltShifted ≤ c.Alternate then
    if c.Alternate = AltShiftTrimmed then
      if quatTrimSpec ws = [] then [] else 0 :: quatTrimSpec ws
    else 0 :: quatBytes ws
  else []

/-- The secondary part of a sort key: a 0x00 0x00 separator and the
secondary section when Strength ≥ Secondary; a bare separator when only
CaseLevel is set; nothing otherwise. -/
def secondaryPart (c : Collator) (ws : List Elem) : List Nat :=
  if Level.Secondary ≤ c.Strength then 0 :: 0 :: secondarySection c ws
  else if c.CaseLevel then [0, 0] else []

/-- The tertiary-and-beyond part of a sort key: a 0x00 0x00 separator, the
tertiary section and the quaternary part, when enabled. -/
def tertiaryPart (c : Collator) (ws : List Elem) : List Nat :=
  if Level.Tertiary ≤ c.Strength ∨ c.CaseLevel then
    0 :: 0 :: (tertiarySection ws ++ quatSection c ws)
  else []

/-- iter.doNorm as claimed from §4.2: with k = |buf|-1 the mis-ordered
element, either promote a new starter when the combining window is
exceeded, or walk p back from k while p > pStarter and ccc < buf[p-1].CCC
and rotate buf[p..=k] so that buf[k] lands at position p. -/
def doNormSpec (i : Iter) (ccc : Nat) : Iter :=
  if i.ce.length - 1 - i.pStarter > maxCombiningCharacters then
    { i with
      prevCCC := (i.ce.getD (i.ce.length - 1) Ignore).CCC
      pStarter := i.ce.length - 1 }
  else
    let k := i.ce.length - 1
    let p := walkBack i.ce i.pStarter ccc (k + 1) k
    { i with ce := i.ce.take p ++ i.ce.drop k ++ (i.ce.take k).drop p }

/-- Modelled from the spec: a tiny DUCET-like weight table for the
end-to-end scenarios.  The space (byte 32) is a variable with primary 1 at
the variable top; every other byte is a non-variable with its byte value as
primary; all elements carry secondary 32 and tertiary 2, and one byte is
consumed per element. -/
def elemFor (b : Nat) : Elem := if b = 32 then ⟨1, 32, 2, 0, 0⟩ else ⟨b, 32, 2, 0, 0⟩

def wDeluge : Weigher :=
  ⟨1, fun s => match s with | [] => ([], 0) | b :: _ => ([elemFor b], 1)⟩

/-- The bytes of "de luge". -/
def sDeLuge : List Nat := [100, 101, 32, 108, 117, 103, 101]

/-- The bytes of "deluge". -/
def sDeluge : List Nat := [100, 101, 108, 117, 103, 101]

def cShifted : Collator :=
  { NewFromTable wDeluge with Strength := Level.Primary, Alternate := AltShifted }

def cBlanked : Collator :=
  { NewFromTable wDeluge with Strength := Level.Primary, Alternate := AltBlanked }

def cDefault : Collator := NewFromTable wDeluge

def cQuat : Collator :=
  { NewFromTable wDeluge with Strength := Level.Quaternary, Alternate := AltShifted }

/-- An element with all of primary, secondary and tertiary equal to 1 and
quaternary MaxQuaternary. -/
def e0 : Elem := ⟨1, 1, 1, MaxQuaternary, 0⟩

/-- An iterator state whose last element (combining class 3) is mis-ordered
after an element of combining class 5 following the starter at index 0. -/
def iMis : Iter := ⟨[], [⟨1, 1, 1, 0, 0⟩, ⟨0, 1, 1, 0, 5⟩, ⟨0, 1, 1, 0, 3⟩], 0, 0, 0, 0⟩

/-- Swap a comparison outcome: negate the verdict and exchange the two
iterator states. -/
def swapT (t : Int × Iter × Iter) : Int × Iter × Iter := (-t.1, t.2.2, t.2.1)

/-- The released window never extends past the element buffer.  This holds
for every iterator state arising from setInput and is preserved by all
operations. -/
def IterInv (i : Iter) : Prop := i.nce ≤ i.ce.length

/-- Termination measure for the next()-pumping loops: the input can only
shrink, and the final promotion of residual elements can happen once. -/
def muIter (i : Iter) : Nat :=
  2 * i.input.length + (if i.ce.length = i.nce then 0 else 1)

/-! Theorems.  Claims C1 through C10 in order, with the supporting lemmas
they need stated just before them. -/

/-- Claim C3 (code side): SetOptions is an unimplemented TODO, so after
SetOptions(IgnoreDiacritics) on a fresh collator the Strength is still the
default Tertiary, not Primary as the claim requires. -/
theorem c3_setOptions_leaves_strength (w : Weigher) :
    ((NewFromTable w).SetOptions IgnoreDiacritics).Strength = Level.Tertiary ∧
      ((NewFromTable w).SetOptions IgnoreDiacritics).Strength ≠ Level.Primary := by
  refine ⟨rfl, fun h => ?_⟩
  rw [show ((NewFromTable w).SetOptions IgnoreDiacritics).Strength = Level.Tertiary from rfl] at h
  exact absurd h (by decide)

/-- Claim C1 (code side): under AltShifted at strength Primary the inputs
[97] and [98] compare equal (the primary level is skipped by the TODO
branch of Collator.compare), yet their sort keys differ, so the sign of
Compare does not match the bytewise comparison of the keys. -/
theorem c1_compare_key_mismatch :
    cShifted.Compare [97] [98] = 0 ∧
      bytesCompare (cShifted.Key [97]) (cShifted.Key [98]) = -1 := by
  exact ⟨by decide, by decide⟩

/-- Claim C2 (code side): with the spec-modelled DUCET-like table, compare
of "de luge" and "deluge" returns 0 under Shifted at strength Primary (the
primary level is skipped entirely and processWeights is never applied on
the compare path) and -1 under Blanked (raw primaries are compared), the
opposite of the claimed negative/equal pair. -/
theorem c2_shifted_blanked_eval :
    cShifted.Compare sDeLuge sDeluge = 0 ∧ cBlanked.Compare sDeLuge sDeluge = -1 := by
  exact ⟨by decide, by decide⟩

/-- Claim C6, counterexample: after one complete Compare call, the stored
iterator keeps pce = 1; setting the next input resets the buffer and nce
but not pce, so the claimed entry invariant |buf| = nce = pce = 0 fails on
the second call. -/
theorem c6_counterexample :
    ¬(((cDefault.CompareSt mkIter mkIter [97] [97]).2.1.setInput [98]).ce.length = 0 ∧
      ((cDefault.CompareSt mkIter mkIter [97] [97]).2.1.setInput [98]).nce = 0 ∧
      ((cDefault.CompareSt mkIter mkIter [97] [97]).2.1.setInput [98]).pce = 0) := by
  decide

/-- Claim C6, amended: setting a new input empties the element buffer and
zeroes nce (and prevCCC and pStarter), but leaves pce untouched; pce is
instead zeroed by compareLevel at the start of every level walk. -/
theorem c6_setInput_state (i : Iter) (s : List Nat) :
    (i.setInput s).ce = [] ∧ (i.setInput s).nce = 0 ∧ (i.setInput s).pce = i.pce := by
  exact ⟨rfl, rfl, rfl⟩

/-- Claim C10, counterexample to the claimed out-of-range access: there is
no iterator state in which the guard pce < len(buf) holds and the index
len(buf)-pce-1 read by prevSecondary reaches len(buf). -/
theorem c10_no_out_of_range :
    ¬∃ i : Iter, i.pce < i.ce.length ∧ i.ce.length ≤ prevSecIndex i i.pce := by
  rintro ⟨i, h1, h2⟩
  unfold prevSecIndex at h2
  omega

/-- Claim C10, amended: whenever the guard pce < len(buf) of
prevSecondary's loop holds, the index len(buf)-pce-1 it reads is strictly
within bounds. -/
theorem c10_prevSecondary_in_bounds (i : Iter) (h : i.pce < i.ce.length) :
    prevSecIndex i i.pce < i.ce.length := by
  unfold prevSecIndex
  omega

theorem c10_prevSecondary_in_bounds_witness :
    (⟨[], [Ignore], 0, 0, 0, 0⟩ : Iter).pce < (⟨[], [Ignore], 0, 0, 0, 0⟩ : Iter).ce.length ∧
      prevSecIndex ⟨[], [Ignore], 0, 0, 0, 0⟩ (⟨[], [Ignore], 0, 0, 0, 0⟩ : Iter).pce <
        (⟨[], [Ignore], 0, 0, 0, 0⟩ : Iter).ce.length :=
  ⟨by decide, c10_prevSecondary_in_bounds ⟨[], [Ignore], 0, 0, 0, 0⟩ (by decide)⟩

theorem getD_append_length (l1 : List Elem) (v : Elem) (l2 : List Elem) (d : Elem) :
    (l1 ++ v :: l2).getD l1.length d = v := by
  induction l1 with
  | nil => rfl
  | cons a t ih => simpa using ih

theorem set_append_length (l1 : List Elem) (v x : Elem) (l2 : List Elem) :
    (l1 ++ v :: l2).set l1.length x = l1 ++ x :: l2 := by
  induction l1 with
  | nil => rfl
  | cons a t ih => simp [ih]

theorem pwShiftedLoop_eq (vtop : Nat) :
    ∀ (suf pre : List Elem) (ign : Bool) (f : Nat), suf.length ≤ f →
      pwShiftedLoop vtop f pre.length ign (pre ++ suf) = pre ++ pwShiftedSpec vtop ign suf := by
  intro suf
  induction suf with
  | nil =>
    intro pre ign f hf
    cases f with
    | zero => simp [pwShiftedLoop, pwShiftedSpec]
    | succ f' => simp [pwShiftedLoop, pwShiftedSpec]
  | cons v rest ih =>
    intro pre ign f hf
    obtain ⟨f', rfl⟩ : ∃ f', f = f' + 1 := ⟨f - 1, by simp at hf; omega⟩
    have hlen : pre.length < (pre ++ v :: rest).length := by simp
    have hget : (pre ++ v :: rest).getD pre.length Ignore = v := getD_append_length pre v rest Ignore
    have hrest : rest.length ≤ f' := by simp at hf; omega
    simp only [pwShiftedLoop, hget, if_pos hlen]
    by_cases h1 : v.Primary ≤ vtop ∧ v.Primary ≠ 0
    · rw [if_pos h1, set_append_length]
      have e1 : pre ++ MakeQuaternary v.Primary :: rest =
          (pre ++ [MakeQuaternary v.Primary]) ++ rest := by simp
      have e2 : pre.length + 1 = (pre ++ [MakeQuaternary v.Primary]).length := by simp
      rw [e1, e2, ih (pre ++ [MakeQuaternary v.Primary]) true f' hrest]
      have hspec : pwShiftedSpec vtop ign (v :: rest) =
          MakeQuaternary v.Primary :: pwShiftedSpec vtop true rest := by
        rw [pwShiftedSpec, if_pos (by omega)]
      rw [hspec]
      simp
    · rw [if_neg h1]
      by_cases h2 : v.Primary = 0
      · rw [if_pos h2]
        have hspec : pwShiftedSpec vtop ign (v :: rest) =
            (if ign then Ignore else v) :: pwShiftedSpec vtop ign rest := by
          rw [pwShiftedSpec, if_neg (by omega), if_pos h2]
        rw [hspec]
        by_cases hi : ign = true
        · simp only [if_pos hi]
          rw [set_append_length]
          have e2 : pre.length + 1 = (pre ++ [Ignore]).length := by simp
          have e1 : pre ++ Ignore :: rest = (pre ++ [Ignore]) ++ rest := by simp
          rw [e1, e2, ih (pre ++ [Ignore]) ign f' hrest]
          simp
        · simp only [if_neg hi]
          have e2 : pre.length + 1 = (pre ++ [v]).length := by simp
          have e1 : pre ++ v :: rest = (pre ++ [v]) ++ rest := by simp
          rw [e1, e2, ih (pre ++ [v]) ign f' hrest]
          simp
      · rw [if_neg h2]
        have hspec : pwShiftedSpec vtop ign (v :: rest) = v :: pwShiftedSpec vtop false rest := by
          rw [pwShiftedSpec, if_neg (by omega), if_neg h2]
        rw [hspec]
        have e2 : pre.length + 1 = (pre ++ [v]).length := by simp
        have e1 : pre ++ v :: rest = (pre ++ [v]) ++ rest := by simp
        rw [e1, e2, ih (pre ++ [v]) false f' hrest]
        simp

theorem pwBlankedLoop_eq (vtop : Nat) :
    ∀ (suf pre : List Elem) (ign : Bool) (f : Nat), suf.length ≤ f →
      pwBlankedLoop vtop f pre.length ign (pre ++ suf) = pre ++ pwBlankedSpec vtop ign suf := by
  intro suf
  induction suf with
  | nil =>
    intro pre ign f hf
    cases f with
    | zero => simp [pwBlankedLoop, pwBlankedSpec]
    | succ f' => simp [pwBlankedLoop, pwBlankedSpec]
  | cons v rest ih =>
    intro pre ign f hf
    obtain ⟨f', rfl⟩ : ∃ f', f = f' + 1 := ⟨f - 1, by simp at hf; omega⟩
    have hlen : pre.length < (pre ++ v :: rest).length := by simp
    have hget : (pre ++ v :: rest).getD pre.length Ignore = v := getD_append_length pre v rest Ignore
    have hrest : rest.length ≤ f' := by simp at hf; omega
    simp only [pwBlankedLoop, hget, if_pos hlen]
    by_cases h1 : v.Primary ≤ vtop ∧ (ign = true ∨ v.Primary ≠ 0)
    · rw [if_pos h1, set_append_length]
      have e1 : pre ++ Ignore :: rest = (pre ++ [Ignore]) ++ rest := by simp
      have e2 : pre.length + 1 = (pre ++ [Ignore]).length := by simp
      rw [e1, e2, ih (pre ++ [Ignore]) true f' hrest]
      have hspec : pwBlankedSpec vtop ign (v :: rest) = Ignore :: pwBlankedSpec vtop true rest := by
        by_cases hv : 0 < v.Primary ∧ v.Primary ≤ vtop
        · rw [pwBlankedSpec, if_pos hv]
        · have hz : v.Primary = 0 ∧ ign = true := by
            rcases h1 with ⟨ha, hb | hb⟩
            · constructor
              · by_contra hc
                exact hv ⟨by omega, ha⟩
              · exact hb
            · exact absurd ⟨by omega, ha⟩ hv
          rw [pwBlankedSpec, if_neg hv, if_pos hz]
      rw [hspec]
      simp
    · rw [if_neg h1]
      have hspec : pwBlankedSpec vtop ign (v :: rest) = v :: pwBlankedSpec vtop false rest := by
        have hv : ¬(0 < v.Primary ∧ v.Primary ≤ vtop) := by
          rintro ⟨ha, hb⟩
          exact h1 ⟨hb, Or.inr (by omega)⟩
        have hz : ¬(v.Primary = 0 ∧ ign = true) := by
          rintro ⟨ha, hb⟩
          exact h1 ⟨by omega, Or.inl hb⟩
        rw [pwBlankedSpec, if_neg hv, if_neg hz]
      rw [hspec]
      have e2 : pre.length + 1 = (pre ++ [v]).length := by simp
      have e1 : pre ++ v :: rest = (pre ++ [v]) ++ rest := by simp
      rw [e1, e2, ih (pre ++ [v]) false f' hrest]
      simp

/-- Claim C4: processWeights coincides with the §4.5 reference scan on
every input: under Shifted/ShiftTrimmed each variable becomes a
quaternary-only element and sets the ignore flag, primary ignorables under
the flag become IGNORE, non-variable primaries clear the flag; under
Blanked variables and following primary-ignorables become IGNORE; under
NonIgnorable (and any other value) the array is unchanged. -/
theorem c4_processWeights_spec (vw : AlternateHandling) (top : Nat) (wa : List Elem) :
    processWeights vw top wa = processWeightsSpec vw top wa := by
  unfold processWeights processWeightsSpec
  split_ifs with h1 h2
  · simpa using pwShiftedLoop_eq top wa [] false wa.length (le_refl _)
  · simpa using pwBlankedLoop_eq top wa [] false wa.length (le_refl _)
  · rfl

theorem appendPrimary_eq (k : List Nat) (p : Nat) : appendPrimary k p = k ++ priBytes p := by
  unfold appendPrimary priBytes
  split_ifs <;> rfl

theorem priBytes_ne_nil (p : Nat) : priBytes p ≠ [] := by
  unfold priBytes
  split_ifs <;> simp

theorem take_append_of_le (l1 l2 : List Nat) (n : Nat) (h : n ≤ l1.length) :
    (l1 ++ l2).take n = l1.take n := by
  induction l1 generalizing n with
  | nil =>
    have hn : n = 0 := by simpa using h
    subst hn
    simp
  | cons a t ih =>
    cases n with
    | zero => rfl
    | succ m => simp only [List.cons_append, List.take_succ_cons]
                rw [ih m (by simpa using h)]

theorem foldl_pri (ws : List Elem) (k : List Nat) :
    ws.foldl (fun k v => if 0 < v.Primary then appendPrimary k v.Primary else k) k =
      k ++ primarySection ws := by
  induction ws generalizing k with
  | nil => simp [primarySection]
  | cons v rest ih =>
    simp only [List.foldl_cons, primarySection]
    by_cases h : 0 < v.Primary
    · rw [if_pos h, if_pos h, ih, appendPrimary_eq, List.append_assoc]
    · rw [if_neg h, if_neg h, ih]
      simp

theorem foldl_sec (ws : List Elem) (k : List Nat) :
    ws.foldl
        (fun k v =>
          if 0 < v.Secondary then k ++ [(v.Secondary >>> 8) % 256, v.Secondary % 256] else k) k =
      k ++ secBytes ws := by
  induction ws generalizing k with
  | nil => simp [secBytes]
  | cons v rest ih =>
    simp only [List.foldl_cons, secBytes]
    by_cases h : 0 < v.Secondary
    · rw [if_pos h, if_pos h, ih, List.append_assoc]
    · rw [if_neg h, if_neg h, ih]
      simp

theorem foldl_ter (ws : List Elem) (k : List Nat) :
    ws.foldl (fun k v => if 0 < v.Tertiary then k ++ [v.Tertiary % 256] else k) k =
      k ++ tertiarySection ws := by
  induction ws generalizing k with
  | nil => simp [tertiarySection]
  | cons v rest ih =>
    simp only [List.foldl_cons, tertiarySection]
    by_cases h : 0 < v.Tertiary
    · rw [if_pos h, if_pos h, ih, List.append_assoc]
    · rw [if_neg h, if_neg h, ih]
      simp

theorem foldl_quat (ws : List Elem) (k : List Nat) :
    ws.foldl
        (fun k v =>
          if v.Quaternary = MaxQuaternary then k ++ [0xFF]
          else if 0 < v.Quaternary then appendPrimary k v.Quaternary else k) k =
      k ++ quatBytes ws := by
  induction ws generalizing k with
  | nil => simp [quatBytes]
  | cons v rest ih =>
    simp only [List.foldl_cons, quatBytes]
    by_cases h1 : v.Quaternary = MaxQuaternary
    · rw [if_pos h1, if_pos h1, ih, List.append_assoc]
    · rw [if_neg h1, if_neg h1]
      by_cases h2 : 0 < v.Quaternary
      · rw [if_pos h2, if_pos h2, ih, appendPrimary_eq, List.append_assoc]
      · rw [if_neg h2, if_neg h2, ih]
        simp

theorem quatTrimLoop_take (ws : List Elem) :
    ∀ (k : List Nat) (last : Nat), last ≤ k.length →
      (quatTrimLoop ws (k, last)).1.take (quatTrimLoop ws (k, last)).2 =
        if quatTrimSpec ws = [] then k.take last else k ++ quatTrimSpec ws := by
  induction ws with
  | nil =>
    intro k last hlast
    simp [quatTrimLoop, quatTrimSpec]
  | cons v rest ih =>
    intro k last hlast
    simp only [quatTrimLoop, quatTrimSpec]
    by_cases h1 : v.Quaternary = MaxQuaternary
    · simp only [if_pos h1]
      rw [ih (k ++ [0xFF]) last (le_trans hlast (by simp))]
      by_cases h2 : quatTrimSpec rest = []
      · simp only [if_pos h2, if_pos (rfl : ([] : List Nat) = [])]
        exact take_append_of_le k [0xFF] last hlast
      · simp only [if_neg h2]
        rw [if_neg (by simp : ((0xFF : Nat) :: quatTrimSpec rest) ≠ [])]
        simp
    · simp only [if_neg h1]
      by_cases h3 : 0 < v.Quaternary
      · simp only [if_pos h3]
        rw [appendPrimary_eq,
          ih (k ++ priBytes v.Quaternary) (k ++ priBytes v.Quaternary).length (le_refl _)]
        rw [if_neg (by simp [priBytes_ne_nil] : priBytes v.Quaternary ++ quatTrimSpec rest ≠ [])]
        by_cases h2 : quatTrimSpec rest = []
        · simp [h2]
        · simp [h2]
      · simp only [if_neg h3]
        exact ih k last hlast

/-- Claim C5, amended: every key splits into the primary section, then — 
iff Strength ≥ Secondary or CaseLevel — a two-byte 0x00 0x00 separator with
the secondary section (empty for the bare CaseLevel separator), then — iff
Strength ≥ Tertiary or CaseLevel — a two-byte separator and the tertiary
section, followed by the quaternary part, which is preceded by a single
0x00 byte, not by a two-byte separator (and is dropped entirely, bare 0x00
included, under AltShiftTrimmed when no quaternary weight below
MaxQuaternary is positive). -/
theorem c5_key_sections (c : Collator) (key : List Nat) (ws : List Elem) :
    c.keyFromElems key ws =
      key ++ primarySection ws ++ secondaryPart c ws ++ tertiaryPart c ws := by
  simp only [Collator.keyFromElems]
  rw [foldl_pri]
  have hsp : secondaryPart c ws =
      if Level.Secondary ≤ c.Strength then 0 :: 0 :: secondarySection c ws
      else if c.CaseLevel then [0, 0] else [] := rfl
  have htp : tertiaryPart c ws =
      if Level.Tertiary ≤ c.Strength ∨ c.CaseLevel then
        0 :: 0 :: (tertiarySection ws ++ quatSection c ws)
      else [] := rfl
  by_cases hsec : Level.Secondary ≤ c.Strength
  · simp only [if_pos hsec, hsp, htp]
    have hk2 :
        (if c.Backwards then
            ws.reverse.foldl
              (fun k v =>
                if 0 < v.Secondary then k ++ [(v.Secondary >>> 8) % 256, v.Secondary % 256] else k)
              (key ++ primarySection ws ++ [0, 0])
          else
            ws.foldl
              (fun k v =>
                if 0 < v.Secondary then k ++ [(v.Secondary >>> 8) % 256, v.Secondary % 256] else k)
              (key ++ primarySection ws ++ [0, 0])) =
          key ++ primarySection ws ++ [0, 0] ++ secondarySection c ws := by
      by_cases hb : c.Backwards = true
      · rw [if_pos hb, foldl_sec]
        unfold secondarySection
        rw [if_pos hb]
      · rw [if_neg hb, foldl_sec]
        unfold secondarySection
        rw [if_neg hb]
    rw [hk2]
    by_cases hter : Level.Tertiary ≤ c.Strength ∨ c.CaseLevel
    · simp only [if_pos hter]
      rw [foldl_ter]
      have hqs : quatSection c ws =
          if Level.Quaternary ≤ c.Strength ∧ AltShifted ≤ c.Alternate then
            if c.Alternate = AltShiftTrimmed then
              if quatTrimSpec ws = [] then [] else 0 :: quatTrimSpec ws
            else 0 :: quatBytes ws
          else [] := rfl
      by_cases hq : Level.Quaternary ≤ c.Strength ∧ AltShifted ≤ c.Alternate
      · simp only [if_pos hq, hqs]
        by_cases htr : c.Alternate = AltShiftTrimmed
        · simp only [if_pos htr]
          rw [quatTrimLoop_take ws _ _ (by simp)]
          by_cases hz : quatTrimSpec ws = []
          · simp only [if_pos hz]
            rw [take_append_of_le _ [0] _ (le_refl _)]
            simp [List.append_assoc]
          · simp only [if_neg hz]
            simp [List.append_assoc]
        · simp only [if_neg htr]
          rw [foldl_quat]
          simp [List.append_assoc]
      · simp only [if_neg hq, hqs]
        simp [List.append_assoc]
    · simp only [if_neg hter]
      simp [List.append_assoc]
  · simp only [if_neg hsec, hsp, htp]
    by_cases hcl : c.CaseLevel = true
    · simp only [if_pos hcl]
      by_cases hter : Level.Tertiary ≤ c.Strength ∨ c.CaseLevel
      · simp only [if_pos hter]
        rw [foldl_ter]
        have hqs : quatSection c ws =
            if Level.Quaternary ≤ c.Strength ∧ AltShifted ≤ c.Alternate then
              if c.Alternate = AltShiftTrimmed then
                if quatTrimSpec ws = [] then [] else 0 :: quatTrimSpec ws
              else 0 :: quatBytes ws
            else [] := rfl
        by_cases hq : Level.Quaternary ≤ c.Strength ∧ AltShifted ≤ c.Alternate
        · simp only [if_pos hq, hqs]
          by_cases htr : c.Alternate = AltShiftTrimmed
          · simp only [if_pos htr]
            rw [quatTrimLoop_take ws _ _ (by simp)]
            by_cases hz : quatTrimSpec ws = []
            · simp only [if_pos hz]
              rw [take_append_of_le _ [0] _ (le_refl _)]
              simp [List.append_assoc]
            · simp only [if_neg hz]
              simp [List.append_assoc]
          · simp only [if_neg htr]
            rw [foldl_quat]
            simp [List.append_assoc]
        · simp only [if_neg hq, hqs]
          simp [List.append_assoc]
      · exact absurd (Or.inr hcl) hter
    · simp only [if_neg hcl]
      by_cases hter : Level.Tertiary ≤ c.Strength ∨ c.CaseLevel
      · simp only [if_pos hter]
        rw [foldl_ter]
        have hqs : quatSection c ws =
            if Level.Quaternary ≤ c.Strength ∧ AltShifted ≤ c.Alternate then
              if c.Alternate = AltShiftTrimmed then
                if quatTrimSpec ws = [] then [] else 0 :: quatTrimSpec ws
              else 0 :: quatBytes ws
            else [] := rfl
        by_cases hq : Level.Quaternary ≤ c.Strength ∧ AltShifted ≤ c.Alternate
        · simp only [if_pos hq, hqs]
          by_cases htr : c.Alternate = AltShiftTrimmed
          · simp only [if_pos htr]
            rw [quatTrimLoop_take ws _ _ (by simp)]
            by_cases hz : quatTrimSpec ws = []
            · simp only [if_pos hz]
              rw [take_append_of_le _ [0] _ (le_refl _)]
              simp [List.append_assoc]
            · simp only [if_neg hz]
              simp [List.append_assoc]
          · simp only [if_neg htr]
            rw [foldl_quat]
            simp [List.append_assoc]
        · simp only [if_neg hq, hqs]
          simp [List.append_assoc]
      · simp only [if_neg hter]
        simp

/-- Claim C5, counterexample to the two-byte quaternary separator: for a
single element with primary, secondary and tertiary 1 and quaternary
MaxQuaternary, at Quaternary strength under AltShifted, the encoder emits a
single 0x00 before the quaternary section, so no suffix can complete the
claimed primary ++ 0x00 0x00 ++ secondary ++ 0x00 0x00 ++ tertiary ++
0x00 0x00 ++ quaternary shape. -/
theorem c5_counterexample :
    ¬∃ q : List Nat,
      cQuat.keyFromElems [] [e0] =
        primarySection [e0] ++ [0, 0] ++ secondarySection cQuat [e0] ++ [0, 0] ++
          tertiarySection [e0] ++ [0, 0] ++ q := by
  rintro ⟨q, h⟩
  have e1 : cQuat.keyFromElems [] [e0] = [0, 1, 0, 0, 0, 1, 0, 0, 1, 0, 255] := by decide
  have e2 : primarySection [e0] ++ [0, 0] ++ secondarySection cQuat [e0] ++ [0, 0] ++
      tertiarySection [e0] ++ [0, 0] = [0, 1, 0, 0, 0, 1, 0, 0, 1, 0, 0] := by decide
  rw [e1, e2] at h
  have hl := congrArg List.length h
  simp only [List.length_append, List.length_cons, List.length_nil] at hl
  have hq : q = [] := by
    cases q with
    | nil => rfl
    | cons x xs => simp at hl
  subst hq
  rw [List.append_nil] at h
  exact absurd h (by decide)

theorem walkBack_le (ce : List Elem) (ps ccc : Nat) :
    ∀ (f p : Nat), walkBack ce ps ccc f p ≤ p := by
  intro f
  induction f with
  | zero => intro p; simp [walkBack]
  | succ f ih =>
    intro p
    rw [walkBack]
    split_ifs with h
    · exact le_trans (ih (p - 1)) (by omega)
    · exact le_refl p

/-- Claim C8: on the mis-ordered element at k = |buf|-1 (the caller's
guard ccc < prevCCC supplies the hypothesis on buf[k-1]), doNorm agrees
with the §4.2 reference algorithm: either the 30-element combining window
is exceeded and only prevCCC/pStarter change, or buf[p..=k] is rotated so
that buf[k] lands at p; the buffer length and its multiset of elements are
unchanged. -/
theorem c8_doNorm (i : Iter) (ccc : Nat) (h1 : i.pStarter < i.ce.length - 1)
    (h2 : ccc < (i.ce.getD (i.ce.length - 2) Ignore).CCC) :
    i.doNorm (i.ce.length - 1) ccc = doNormSpec i ccc ∧
      (i.doNorm (i.ce.length - 1) ccc).ce.length = i.ce.length ∧
      (i.doNorm (i.ce.length - 1) ccc).ce.Perm i.ce := by
  have hn : 2 ≤ i.ce.length := by omega
  have hw : walkBack i.ce i.pStarter ccc (i.ce.length - 1 + 1) (i.ce.length - 1) =
      walkBack i.ce i.pStarter ccc (i.ce.length - 1) (i.ce.length - 1 - 1) := by
    rw [walkBack, if_pos]
    refine ⟨h1, ?_⟩
    rw [show i.ce.length - 1 - 1 = i.ce.length - 2 from by omega]
    exact h2
  have hp1 : walkBack i.ce i.pStarter ccc (i.ce.length - 1) (i.ce.length - 1 - 1) ≤
      i.ce.length - 1 - 1 := walkBack_le _ _ _ _ _
  refine ⟨?_, ?_, ?_⟩
  · simp only [Iter.doNorm, doNormSpec]
    by_cases hg : i.ce.length - 1 - i.pStarter > maxCombiningCharacters
    · rw [if_pos hg, if_pos hg]
    · rw [if_neg hg, if_neg hg, hw]
  · simp only [Iter.doNorm]
    by_cases hg : i.ce.length - 1 - i.pStarter > maxCombiningCharacters
    · rw [if_pos hg]
    · rw [if_neg hg]
      simp only [List.length_append, List.length_take, List.length_drop]
      omega
  · simp only [Iter.doNorm]
    by_cases hg : i.ce.length - 1 - i.pStarter > maxCombiningCharacters
    · rw [if_pos hg]
    · rw [if_neg hg]
      have hsplit : i.ce = i.ce.take (walkBack i.ce i.pStarter ccc (i.ce.length - 1)
          (i.ce.length - 1 - 1)) ++
          (((i.ce.take (i.ce.length - 1)).drop (walkBack i.ce i.pStarter ccc (i.ce.length - 1)
            (i.ce.length - 1 - 1))) ++ i.ce.drop (i.ce.length - 1)) := by
        conv_lhs => rw [← List.take_append_drop (i.ce.length - 1) i.ce]
        conv_lhs =>
          rw [← List.take_append_drop (walkBack i.ce i.pStarter ccc (i.ce.length - 1)
            (i.ce.length - 1 - 1)) (i.ce.take (i.ce.length - 1))]
        rw [List.take_take, min_eq_left (by omega), List.append_assoc]
      conv_rhs => rw [hsplit]
      rw [List.append_assoc]
      exact List.Perm.append_left _ (List.perm_append_comm)

theorem c8_doNorm_witness :
    (iMis.pStarter < iMis.ce.length - 1 ∧
        3 < (iMis.ce.getD (iMis.ce.length - 2) Ignore).CCC) ∧
      (iMis.doNorm (iMis.ce.length - 1) 3 = doNormSpec iMis 3 ∧
        (iMis.doNorm (iMis.ce.length - 1) 3).ce.length = iMis.ce.length ∧
        (iMis.doNorm (iMis.ce.length - 1) 3).ce.Perm iMis.ce) :=
  ⟨⟨by decide, by decide⟩, c8_doNorm iMis 3 (by decide) (by decide)⟩

theorem bytesCompare_swap (a : List Nat) : ∀ b, bytesCompare b a = -bytesCompare a b := by
  induction a with
  | nil => intro b; cases b <;> simp [bytesCompare]
  | cons x as ih =>
    intro b
    cases b with
    | nil => simp [bytesCompare]
    | cons y bs =>
      simp only [bytesCompare]
      by_cases h1 : x < y
      · rw [if_neg (by omega : ¬y < x), if_pos h1, if_pos h1]
        norm_num
      · by_cases h2 : y < x
        · rw [if_pos h2, if_neg h1, if_pos h2]
        · rw [if_neg h2, if_neg h1, if_neg h1, if_neg h2]
          exact ih bs

theorem compareLevelLoop_swap (f : Iter → Nat × Iter) :
    ∀ (fuel : Nat) (a b : Iter),
      compareLevelLoop f fuel b a = swapT (compareLevelLoop f fuel a b) := by
  intro fuel
  induction fuel with
  | zero => intro a b; simp [compareLevelLoop, swapT]
  | succ n ih =>
    intro a b
    rcases hfa : f a with ⟨va, a2⟩
    rcases hfb : f b with ⟨vb, b2⟩
    simp only [compareLevelLoop, hfa, hfb]
    by_cases hne : va = vb
    · subst hne
      rw [if_neg (by omega : ¬va ≠ va), if_neg (by omega : ¬va ≠ va)]
      by_cases h0 : va = 0
      · rw [if_pos h0, if_pos h0]
        simp [swapT]
      · rw [if_neg h0, if_neg h0]
        exact ih a2 b2
    · rw [if_pos (by omega : vb ≠ va), if_pos (by omega : va ≠ vb)]
      by_cases hlt : va < vb
      · rw [if_neg (by omega : ¬vb < va), if_pos hlt]
        simp [swapT]
      · rw [if_pos (by omega : vb < va), if_neg hlt]
        simp [swapT]

theorem compareLevel_swap (f : Iter → Nat × Iter) (fuel : Nat) (a b : Iter) :
    compareLevel f fuel b a = swapT (compareLevel f fuel a b) := by
  unfold compareLevel
  exact compareLevelLoop_swap f fuel _ _

theorem levelStep_swap (cond : Prop) [Decidable cond] (f : Iter → Nat × Iter) (fuel : Nat)
    (t : Int × Iter × Iter) :
    levelStep cond f fuel (swapT t) = swapT (levelStep cond f fuel t) := by
  obtain ⟨r, x, y⟩ := t
  simp only [levelStep, swapT]
  by_cases hr : r = 0
  · subst hr
    simp only [neg_zero, ne_eq, not_true_eq_false, if_false]
    split_ifs with hc
    · exact compareLevel_swap f fuel x y
    · rfl
  · rw [if_pos (by omega : ¬-r = 0), if_pos hr]

theorem compareIterF_swap (c : Collator) (fb : Nat) (a b : Iter) :
    c.compareIterF fb b a = swapT (c.compareIterF fb a b) := by
  unfold Collator.compareIterF
  have h0 : ((0 : Int), b, a) = swapT (0, a, b) := by simp [swapT]
  rw [h0, levelStep_swap, levelStep_swap, levelStep_swap, levelStep_swap]

theorem cmpFuel_symm (w : Weigher) (a b : Iter) : cmpFuel w a b = cmpFuel w b a := by
  unfold cmpFuel
  omega

theorem compareStF_swap (c : Collator) (fb : Nat) (i0 i1 : Iter) (a b : List Nat) :
    c.CompareStF fb i0 i1 b a = swapT (c.CompareStF fb i1 i0 a b) := by
  unfold Collator.CompareStF
  rw [compareIterF_swap]
  set t := c.compareIterF fb (Iter.setInput i1 a) (Iter.setInput i0 b) with ht
  simp only [swapT]
  by_cases h : t.1 = 0
  · rw [if_neg (by omega : ¬-t.1 ≠ 0), if_neg (by omega : ¬t.1 ≠ 0)]
    split_ifs with hc
    · rw [bytesCompare_swap a b]
    · rfl
  · rw [if_pos (by omega : -t.1 ≠ 0), if_pos (by omega : t.1 ≠ 0)]

theorem compare_swap (c : Collator) (a b : List Nat) : c.Compare b a = -c.Compare a b := by
  unfold Collator.Compare Collator.CompareSt
  rw [cmpFuel_symm c.t (Iter.setInput mkIter b) (Iter.setInput mkIter a)]
  rw [compareStF_swap]
  rfl

/-- Claim C7: for every collator configuration and all byte inputs,
Compare is antisymmetric in sign, and in particular comparing an input
with itself yields 0. -/
theorem c7_antisymmetry_reflexivity (c : Collator) (a b : List Nat) :
    Int.sign (c.Compare a b) = -Int.sign (c.Compare b a) ∧ c.Compare a a = 0 := by
  constructor
  · rw [compare_swap c a b, Int.sign_neg, neg_neg]
  · have h := compare_swap c a a
    omega

theorem scanS_le (ce : List Elem) (last : Nat) :
    ∀ (f q : Nat), q ≤ last → scanS ce last f q ≤ last := by
  intro f
  induction f with
  | zero => intro q hq; simpa [scanS] using hq
  | succ f ih =>
    intro q hq
    rw [scanS]
    split_ifs with h
    · exact ih (q + 1) (by omega)
    · exact hq

theorem scanW_post (val : Nat → Nat) (len : Nat) :
    ∀ (f q : Nat),
      q ≤ (scanW val len f q).2 ∧
        ((scanW val len f q).1 ≠ 0 → q < (scanW val len f q).2 ∧ (scanW val len f q).2 ≤ len) := by
  intro f
  induction f with
  | zero => intro q; simp [scanW]
  | succ f ih =>
    intro q
    rw [scanW]
    split_ifs with h1 h2
    · exact ⟨by omega, fun _ => ⟨by omega, by omega⟩⟩
    · refine ⟨le_trans (by omega) (ih (q + 1)).1, fun hv => ⟨by have := (ih (q + 1)).1; omega, ?_⟩⟩
      exact ((ih (q + 1)).2 hv).2
    · exact ⟨le_refl q, fun hv => absurd rfl hv⟩

theorem elemsF_stable (w : Weigher) (hw : WeigherOK w) :
    ∀ (n : Nat) (s : List Nat), s.length ≤ n → ∀ f, s.length < f →
      elemsF w f s = elemsF w (s.length + 1) s := by
  intro n
  induction n with
  | zero =>
    intro s hs f hf
    have hnil : s = [] := List.length_eq_zero.mp (by omega)
    subst hnil
    obtain ⟨f', rfl⟩ : ∃ f', f = f' + 1 := ⟨f - 1, by omega⟩
    simp [elemsF]
  | succ n ih =>
    intro s hs f hf
    obtain ⟨f', rfl⟩ : ∃ f', f = f' + 1 := ⟨f - 1, by omega⟩
    by_cases hne : s = []
    · subst hne
      simp [elemsF]
    · rw [elemsF, elemsF, if_neg hne, if_neg hne]
      have hsz := hw s hne
      have hd : (s.drop (w.AppendNext s).2).length < s.length := by
        rw [List.length_drop]
        have hlen : 1 ≤ s.length := by
          cases s
          · exact absurd rfl hne
          · simp
        omega
      rw [ih (s.drop (w.AppendNext s).2) (by omega) f' (by omega),
        ih (s.drop (w.AppendNext s).2) (by omega) s.length (by omega)]

theorem elemsTot_cons (w : Weigher) (hw : WeigherOK w) (s : List Nat) (hne : s ≠ []) :
    elemsTot w s = (w.AppendNext s).1.length + elemsTot w (s.drop (w.AppendNext s).2) := by
  unfold elemsTot
  rw [elemsF, if_neg hne]
  congr 1
  have hsz := hw s hne
  have hd : (s.drop (w.AppendNext s).2).length < s.length := by
    rw [List.length_drop]
    have hlen : 1 ≤ s.length := by
      cases s
      · exact absurd rfl hne
      · simp
    omega
  exact elemsF_stable w hw s.length (s.drop (w.AppendNext s).2) (by omega) s.length (by omega)

theorem doNorm_input (i : Iter) (p ccc : Nat) : (i.doNorm p ccc).input = i.input := by
  unfold Iter.doNorm
  split_ifs <;> rfl

theorem doNorm_nce (i : Iter) (p ccc : Nat) : (i.doNorm p ccc).nce = i.nce := by
  unfold Iter.doNorm
  split_ifs <;> rfl

theorem doNorm_pce (i : Iter) (p ccc : Nat) : (i.doNorm p ccc).pce = i.pce := by
  unfold Iter.doNorm
  split_ifs <;> rfl

theorem doNorm_length (i : Iter) (p ccc : Nat) (hp : p ≤ i.ce.length) :
    (i.doNorm p ccc).ce.length = i.ce.length := by
  unfold Iter.doNorm
  split_ifs with hg
  · rfl
  · have h1 : walkBack i.ce i.pStarter ccc p (p - 1) ≤ p - 1 := walkBack_le _ _ _ _ _
    simp only [List.length_append, List.length_take, List.length_drop]
    omega

theorem nextIter1_inr (w : Weigher) (i j : Iter) (h : nextIter1 w i = Sum.inr j) :
    j.input = i.input.drop (w.AppendNext i.input).2 ∧
      j.ce.length = i.ce.length + (w.AppendNext i.input).1.length ∧
      j.nce = i.nce ∧ j.pce = i.pce := by
  simp only [nextIter1, Iter.appendNextM, Iter.tail] at h
  split_ifs at h with h1 h2 h3
  · have hj := Sum.inr.inj h
    subst hj
    refine ⟨?_, ?_, ?_, ?_⟩
    · rw [doNorm_input]
    · rw [doNorm_length _ _ _ (by simp)]
      simp
    · rw [doNorm_nce]
    · rw [doNorm_pce]
  · have hj := Sum.inr.inj h
    subst hj
    exact ⟨rfl, by simp, rfl, rfl⟩

theorem nextIter1_inl (w : Weigher) (i : Iter) (r : Bool × Iter) (h : nextIter1 w i = Sum.inl r) :
    r.1 = true ∧ r.2.input = i.input.drop (w.AppendNext i.input).2 ∧
      r.2.ce.length = i.ce.length + (w.AppendNext i.input).1.length ∧
      r.2.pce = i.pce ∧ r.2.nce ≤ r.2.ce.length := by
  simp only [nextIter1, Iter.appendNextM, Iter.tail] at h
  split_ifs at h with h1 h2
  · have hr := Sum.inl.inj h
    subst hr
    exact ⟨rfl, rfl, by simp, rfl, by simp⟩
  · have hr := Sum.inl.inj h
    subst hr
    refine ⟨rfl, rfl, by simp, rfl, ?_⟩
    have hs := scanS_le (i.ce ++ (w.AppendNext i.input).1)
      ((i.ce ++ (w.AppendNext i.input).1).length - 1)
      ((i.ce ++ (w.AppendNext i.input).1).length - 1) (i.ce.length + 1) (by omega)
    simp only []
    omega

theorem nextF_post (w : Weigher) (hw : WeigherOK w) :
    ∀ (fuel : Nat) (i : Iter), IterInv i →
      IterInv (Iter.nextF w fuel i).2 ∧ iterN w (Iter.nextF w fuel i).2 ≤ iterN w i ∧
        (Iter.nextF w fuel i).2.pce = i.pce := by
  intro fuel
  induction fuel with
  | zero => intro i hi; exact ⟨hi, le_refl _, rfl⟩
  | succ f ih =>
    intro i hi
    rw [Iter.nextF]
    by_cases hd : i.done
    · rw [if_pos hd]
      by_cases hne : i.ce.length ≠ i.nce
      · rw [if_pos hne]
        exact ⟨le_refl _, le_refl _, rfl⟩
      · rw [if_neg hne]
        exact ⟨hi, le_refl _, rfl⟩
    · rw [if_neg hd]
      have hio : i.input ≠ [] := by simpa [Iter.done] using hd
      rcases hin : nextIter1 w i with r | j
      · simp only [hin]
        obtain ⟨hflag, hinp, hlen, hpce, hinv⟩ := nextIter1_inl w i r hin
        refine ⟨hinv, ?_, hpce⟩
        unfold iterN
        rw [hinp, hlen, elemsTot_cons w hw i.input hio]
        omega
      · simp only [hin]
        obtain ⟨hinp, hlen, hnce, hpce⟩ := nextIter1_inr w i j hin
        have hij : IterInv j := by
          unfold IterInv at hi ⊢
          omega
        obtain ⟨h1, h2, h3⟩ := ih j hij
        have hiter : iterN w j = iterN w i := by
          unfold iterN
          rw [hinp, hlen, elemsTot_cons w hw i.input hio]
          omega
        exact ⟨h1, by omega, by rw [h3, hpce]⟩

theorem nextF_true_mu (w : Weigher) (hw : WeigherOK w) :
    ∀ (fuel : Nat) (i i' : Iter), Iter.nextF w fuel i = (true, i') → muIter i' < muIter i := by
  intro fuel
  induction fuel with
  | zero =>
    intro i i' h
    rw [Iter.nextF] at h
    have := congrArg Prod.fst h
    simp at this
  | succ f ih =>
    intro i i' h
    rw [Iter.nextF] at h
    by_cases hd : i.done
    · rw [if_pos hd] at h
      by_cases hne : i.ce.length ≠ i.nce
      · rw [if_pos hne] at h
        have h2 : ({ i with nce := i.ce.length } : Iter) = i' := by
          have := congrArg Prod.snd h
          simpa using this
        subst h2
        unfold muIter
        dsimp only
        split_ifs <;> omega
      · rw [if_neg hne] at h
        have := congrArg Prod.fst h
        simp at this
    · rw [if_neg hd] at h
      have hio : i.input ≠ [] := by simpa [Iter.done] using hd
      have hsz := hw i.input hio
      have hpos : 0 < i.input.length := List.length_pos.mpr hio
      rcases hin : nextIter1 w i with r | j
      · simp only [hin] at h
        obtain ⟨hflag, hinp, hlenr, hpce, hinv⟩ := nextIter1_inl w i r hin
        have h2 : r.2 = i' := congrArg Prod.snd h
        have hlt : i'.input.length < i.input.length := by
          rw [← h2, hinp, List.length_drop]
          omega
        unfold muIter
        split_ifs <;> omega
      · simp only [hin] at h
        have hmu := ih j i' h
        obtain ⟨hinp, hlenj, hnce, hpce⟩ := nextIter1_inr w i j hin
        have hlt : j.input.length < i.input.length := by
          rw [hinp, List.length_drop]
          omega
        have hji : muIter j < muIter i := by
          unfold muIter
          split_ifs <;> omega
        omega

theorem nextF_stable (w : Weigher) (hw : WeigherOK w) :
    ∀ (n : Nat) (i : Iter), i.input.length ≤ n → ∀ f, i.input.length < f →
      Iter.nextF w f i = Iter.nextF w (i.input.length + 1) i := by
  intro n
  induction n with
  | zero =>
    intro i hi f hf
    obtain ⟨f', rfl⟩ : ∃ f', f = f' + 1 := ⟨f - 1, by omega⟩
    have hd : i.done := by
      unfold Iter.done
      exact List.length_eq_zero.mp (by omega)
    rw [Iter.nextF, Iter.nextF, if_pos hd, if_pos hd]
  | succ n ih =>
    intro i hi f hf
    obtain ⟨f', rfl⟩ : ∃ f', f = f' + 1 := ⟨f - 1, by omega⟩
    rw [Iter.nextF, Iter.nextF]
    by_cases hd : i.done
    · rw [if_pos hd, if_pos hd]
    · rw [if_neg hd, if_neg hd]
      have hio : i.input ≠ [] := by simpa [Iter.done] using hd
      have hsz := hw i.input hio
      have hpos : 0 < i.input.length := List.length_pos.mpr hio
      rcases hin : nextIter1 w i with r | j
      · simp only [hin]
      · simp only [hin]
        obtain ⟨hinp, hlenj, hnce, hpce⟩ := nextIter1_inr w i j hin
        have hjl : j.input.length < i.input.length := by
          rw [hinp, List.length_drop]
          omega
        rw [ih j (by omega) f' (by omega), ih j (by omega) i.input.length (by omega)]

theorem len_le_iterN (w : Weigher) (i : Iter) : i.ce.length ≤ iterN w i := by
  unfold iterN
  omega

theorem npf_post (w : Weigher) (hw : WeigherOK w) :
    ∀ (fuel : Nat) (i : Iter), IterInv i →
      IterInv (Iter.nextPrimaryF w fuel i).2 ∧
        iterN w (Iter.nextPrimaryF w fuel i).2 ≤ iterN w i ∧
        i.pce ≤ (Iter.nextPrimaryF w fuel i).2.pce ∧
        ((Iter.nextPrimaryF w fuel i).1 ≠ 0 →
          i.pce < (Iter.nextPrimaryF w fuel i).2.pce ∧
            (Iter.nextPrimaryF w fuel i).2.pce ≤ iterN w (Iter.nextPrimaryF w fuel i).2) := by
  intro fuel
  induction fuel with
  | zero => intro i hi; exact ⟨hi, le_refl _, le_refl _, fun h => absurd rfl h⟩
  | succ f ih =>
    intro i hi
    rw [Iter.nextPrimaryF]
    simp only [Iter.nextPrimaryScan]
    have hsp := scanW_post (fun j => (i.ce.getD j Ignore).Primary) i.nce i.nce i.pce
    by_cases hv : (scanW (fun j => (i.ce.getD j Ignore).Primary) i.nce i.nce i.pce).1 ≠ 0
    · rw [if_pos hv]
      refine ⟨hi, le_refl _, hsp.1, fun _ => ⟨(hsp.2 hv).1, ?_⟩⟩
      have h1 := (hsp.2 hv).2
      have h2 : i.nce ≤ i.ce.length := hi
      have h3 := len_le_iterN w i
      show (scanW (fun j => (i.ce.getD j Ignore).Primary) i.nce i.nce i.pce).2 ≤ iterN w i
      omega
    · rw [if_neg hv]
      have hnp := nextF_post w hw (i.input.length + 1)
        { i with pce := (scanW (fun j => (i.ce.getD j Ignore).Primary) i.nce i.nce i.pce).2 } hi
      have e1 : (Iter.nextF w (i.input.length + 1)
          { i with
            pce := (scanW (fun j => (i.ce.getD j Ignore).Primary) i.nce i.nce i.pce).2 }).2.pce =
          (scanW (fun j => (i.ce.getD j Ignore).Primary) i.nce i.nce i.pce).2 := hnp.2.2
      have e2 : iterN w (Iter.nextF w (i.input.length + 1)
          { i with
            pce := (scanW (fun j => (i.ce.getD j Ignore).Primary) i.nce i.nce i.pce).2 }).2 ≤
          iterN w i := hnp.2.1
      have h0 := hsp.1
      by_cases hb : (Iter.nextF w (i.input.length + 1)
          { i with
            pce := (scanW (fun j => (i.ce.getD j Ignore).Primary) i.nce i.nce i.pce).2 }).1 = true
      · rw [if_pos hb]
        obtain ⟨k1, k2, k3, k4⟩ := ih _ hnp.1
        refine ⟨k1, le_trans k2 e2, by omega, fun hs => ⟨?_, (k4 hs).2⟩⟩
        have h2 := (k4 hs).1
        omega
      · rw [if_neg hb]
        refine ⟨hnp.1, e2, ?_, fun h => absurd rfl h⟩
        show i.pce ≤ (Iter.nextF w (i.input.length + 1)
          { i with
            pce := (scanW (fun j => (i.ce.getD j Ignore).Primary) i.nce i.nce i.pce).2 }).2.pce
        omega

theorem cll_stable (w : Weigher) (f : Iter → Nat × Iter) (m : Iter → Nat)
    (hf : ∀ i : Iter, IterInv i →
      IterInv (f i).2 ∧ iterN w (f i).2 ≤ iterN w i ∧ ((f i).1 ≠ 0 → m (f i).2 < m i)) :
    ∀ (bnd : Nat) (a b : Iter), m a ≤ bnd → IterInv a → ∀ f1 f2, m a < f1 → m a < f2 →
      compareLevelLoop f f1 a b = compareLevelLoop f f2 a b := by
  intro bnd
  induction bnd with
  | zero =>
    intro a b hm ha f1 f2 h1 h2
    obtain ⟨g1, rfl⟩ : ∃ g, f1 = g + 1 := ⟨f1 - 1, by omega⟩
    obtain ⟨g2, rfl⟩ : ∃ g, f2 = g + 1 := ⟨f2 - 1, by omega⟩
    simp only [compareLevelLoop]
    split_ifs with c1 c3 c2
    · rfl
    · rfl
    · rfl
    · exact absurd ((hf a ha).2.2 (by omega)) (by omega)
  | succ bnd ih =>
    intro a b hm ha f1 f2 h1 h2
    obtain ⟨g1, rfl⟩ : ∃ g, f1 = g + 1 := ⟨f1 - 1, by omega⟩
    obtain ⟨g2, rfl⟩ : ∃ g, f2 = g + 1 := ⟨f2 - 1, by omega⟩
    simp only [compareLevelLoop]
    split_ifs with c1 c3 c2
    · rfl
    · rfl
    · rfl
    · have hdec := (hf a ha).2.2 (by omega)
      exact ih (f a).2 (f b).2 (by omega) (hf a ha).1 g1 g2 (by omega) (by omega)

theorem cll_post (w : Weigher) (f : Iter → Nat × Iter)
    (hf : ∀ i : Iter, IterInv i → IterInv (f i).2 ∧ iterN w (f i).2 ≤ iterN w i) :
    ∀ (fuel : Nat) (a b : Iter), IterInv a → IterInv b →
      IterInv (compareLevelLoop f fuel a b).2.1 ∧ IterInv (compareLevelLoop f fuel a b).2.2 ∧
        iterN w (compareLevelLoop f fuel a b).2.1 ≤ iterN w a ∧
        iterN w (compareLevelLoop f fuel a b).2.2 ≤ iterN w b := by
  intro fuel
  induction fuel with
  | zero => intro a b ha hb; exact ⟨ha, hb, le_refl _, le_refl _⟩
  | succ n ih =>
    intro a b ha hb
    simp only [compareLevelLoop]
    split_ifs with c1 c3 c2
    · exact ⟨(hf a ha).1, (hf b hb).1, (hf a ha).2, (hf b hb).2⟩
    · exact ⟨(hf a ha).1, (hf b hb).1, (hf a ha).2, (hf b hb).2⟩
    · exact ⟨(hf a ha).1, (hf b hb).1, (hf a ha).2, (hf b hb).2⟩
    · obtain ⟨k1, k2, k3, k4⟩ := ih (f a).2 (f b).2 (hf a ha).1 (hf b hb).1
      exact ⟨k1, k2, le_trans k3 (hf a ha).2, le_trans k4 (hf b hb).2⟩

theorem levelStep_stable (w : Weigher) (cond : Prop) [Decidable cond] (f : Iter → Nat × Iter)
    (m : Iter → Nat)
    (hf : ∀ i : Iter, IterInv i →
      IterInv (f i).2 ∧ iterN w (f i).2 ≤ iterN w i ∧ ((f i).1 ≠ 0 → m (f i).2 < m i))
    (hm0 : ∀ i : Iter, m { i with pce := 0 } ≤ iterN w i + 1) :
    ∀ (t : Int × Iter × Iter) (f1 f2 : Nat), IterInv t.2.1 → IterInv t.2.2 →
      iterN w t.2.1 + 1 < f1 → iterN w t.2.1 + 1 < f2 →
      levelStep cond f f1 t = levelStep cond f f2 t ∧
        IterInv (levelStep cond f f1 t).2.1 ∧ IterInv (levelStep cond f f1 t).2.2 ∧
        iterN w (levelStep cond f f1 t).2.1 ≤ iterN w t.2.1 ∧
        iterN w (levelStep cond f f1 t).2.2 ≤ iterN w t.2.2 := by
  intro t f1 f2 h1 h2 hf1 hf2
  obtain ⟨r, x, y⟩ := t
  simp only [levelStep]
  by_cases hr : r ≠ 0
  · rw [if_pos hr, if_pos hr]
    exact ⟨rfl, h1, h2, le_refl _, le_refl _⟩
  · rw [if_neg hr, if_neg hr]
    by_cases hc : cond
    · rw [if_pos hc, if_pos hc]
      unfold compareLevel
      have hinv0 : IterInv ({ x with pce := 0 }) := h1
      have hinv0y : IterInv ({ y with pce := 0 }) := h2
      have hmx : m { x with pce := 0 } ≤ iterN w x + 1 := hm0 x
      have hst := cll_stable w f m hf (m { x with pce := 0 }) { x with pce := 0 }
        { y with pce := 0 } (le_refl _) hinv0 f1 f2 (by simp only [] at hf1 hf2 ⊢; omega)
        (by simp only [] at hf1 hf2 ⊢; omega)
      refine ⟨hst, ?_⟩
      have hp := cll_post w f (fun i hi => ⟨(hf i hi).1, (hf i hi).2.1⟩) f1 { x with pce := 0 }
        { y with pce := 0 } hinv0 hinv0y
      exact ⟨hp.1, hp.2.1, hp.2.2.1, hp.2.2.2⟩
    · rw [if_neg hc, if_neg hc]
      exact ⟨rfl, h1, h2, le_refl _, le_refl _⟩

theorem hf_primary (w : Weigher) (hw : WeigherOK w) (i : Iter) (hi : IterInv i) :
    IterInv ((fun i : Iter => Iter.nextPrimaryF w (2 * i.input.length + 2) i) i).2 ∧
      iterN w ((fun i : Iter => Iter.nextPrimaryF w (2 * i.input.length + 2) i) i).2 ≤
        iterN w i ∧
      (((fun i : Iter => Iter.nextPrimaryF w (2 * i.input.length + 2) i) i).1 ≠ 0 →
        iterN w ((fun i : Iter => Iter.nextPrimaryF w (2 * i.input.length + 2) i) i).2 -
            ((fun i : Iter => Iter.nextPrimaryF w (2 * i.input.length + 2) i) i).2.pce <
          iterN w i - i.pce) := by
  obtain ⟨k1, k2, k3, k4⟩ := npf_post w hw (2 * i.input.length + 2) i hi
  refine ⟨k1, k2, fun hs => ?_⟩
  obtain ⟨k5, k6⟩ := k4 hs
  simp only []
  omega

theorem hf_pure (w : Weigher) (val : Iter → Nat → Nat) (i : Iter) (hi : IterInv i) :
    IterInv ((scanW (val i) i.ce.length i.ce.length i.pce).1,
        ({ i with pce := (scanW (val i) i.ce.length i.ce.length i.pce).2 } : Iter)).2 ∧
      iterN w ((scanW (val i) i.ce.length i.ce.length i.pce).1,
        ({ i with pce := (scanW (val i) i.ce.length i.ce.length i.pce).2 } : Iter)).2 ≤
        iterN w i ∧
      (((scanW (val i) i.ce.length i.ce.length i.pce).1,
          ({ i with pce := (scanW (val i) i.ce.length i.ce.length i.pce).2 } : Iter)).1 ≠ 0 →
        ((scanW (val i) i.ce.length i.ce.length i.pce).1,
              ({ i with pce := (scanW (val i) i.ce.length i.ce.length i.pce).2 } : Iter)).2.ce.length +
            1 -
            ((scanW (val i) i.ce.length i.ce.length i.pce).1,
              ({ i with pce := (scanW (val i) i.ce.length i.ce.length i.pce).2 } : Iter)).2.pce <
          i.ce.length + 1 - i.pce) := by
  have hsp := scanW_post (val i) i.ce.length i.ce.length i.pce
  refine ⟨hi, le_refl _, fun hs => ?_⟩
  obtain ⟨k1, k2⟩ := hsp.2 hs
  show ({ i with pce := (scanW (val i) i.ce.length i.ce.length i.pce).2 } : Iter).ce.length + 1 -
      (scanW (val i) i.ce.length i.ce.length i.pce).2 < i.ce.length + 1 - i.pce
  have he : ({ i with pce := (scanW (val i) i.ce.length i.ce.length i.pce).2 } : Iter).ce.length =
      i.ce.length := rfl
  rw [he]
  omega

theorem hf_secondary (c : Collator) (i : Iter) (hi : IterInv i) :
    IterInv ((if c.Backwards then Iter.prevSecondary else Iter.nextSecondary) i).2 ∧
      iterN c.t ((if c.Backwards then Iter.prevSecondary else Iter.nextSecondary) i).2 ≤
        iterN c.t i ∧
      (((if c.Backwards then Iter.prevSecondary else Iter.nextSecondary) i).1 ≠ 0 →
        ((if c.Backwards then Iter.prevSecondary else Iter.nextSecondary) i).2.ce.length + 1 -
            ((if c.Backwards then Iter.prevSecondary else Iter.nextSecondary) i).2.pce <
          i.ce.length + 1 - i.pce) := by
  by_cases hb : c.Backwards = true
  · rw [if_pos hb]
    unfold Iter.prevSecondary
    exact hf_pure c.t (fun i j => (i.ce.getD (prevSecIndex i j) Ignore).Secondary) i hi
  · rw [if_neg hb]
    unfold Iter.nextSecondary
    exact hf_pure c.t (fun i j => (i.ce.getD j Ignore).Secondary) i hi

theorem hf_tertiary (w : Weigher) (i : Iter) (hi : IterInv i) :
    IterInv (Iter.nextTertiary i).2 ∧ iterN w (Iter.nextTertiary i).2 ≤ iterN w i ∧
      ((Iter.nextTertiary i).1 ≠ 0 →
        (Iter.nextTertiary i).2.ce.length + 1 - (Iter.nextTertiary i).2.pce <
          i.ce.length + 1 - i.pce) := by
  unfold Iter.nextTertiary
  exact hf_pure w (fun i j => (i.ce.getD j Ignore).Tertiary) i hi

theorem hf_quaternary (w : Weigher) (i : Iter) (hi : IterInv i) :
    IterInv (Iter.nextQuaternary i).2 ∧ iterN w (Iter.nextQuaternary i).2 ≤ iterN w i ∧
      ((Iter.nextQuaternary i).1 ≠ 0 →
        (Iter.nextQuaternary i).2.ce.length + 1 - (Iter.nextQuaternary i).2.pce <
          i.ce.length + 1 - i.pce) := by
  unfold Iter.nextQuaternary
  exact hf_pure w (fun i j => (i.ce.getD j Ignore).Quaternary) i hi

theorem compareIterF_stable (c : Collator) (hw : WeigherOK c.t) (a b : Iter)
    (ha : IterInv a) (hb : IterInv b) (f1 f2 : Nat)
    (h1 : iterN c.t a + iterN c.t b + 2 ≤ f1) (h2 : iterN c.t a + iterN c.t b + 2 ≤ f2) :
    c.compareIterF f1 a b = c.compareIterF f2 a b := by
  have hm0p : ∀ i : Iter,
      (fun i : Iter => iterN c.t i - i.pce) { i with pce := 0 } ≤ iterN c.t i + 1 := by
    intro i
    show iterN c.t i - 0 ≤ iterN c.t i + 1
    omega
  have hm0s : ∀ i : Iter,
      (fun i : Iter => i.ce.length + 1 - i.pce) { i with pce := 0 } ≤ iterN c.t i + 1 := by
    intro i
    show i.ce.length + 1 - 0 ≤ iterN c.t i + 1
    have := len_le_iterN c.t i
    omega
  unfold Collator.compareIterF
  set fP : Iter → Nat × Iter := fun i => Iter.nextPrimaryF c.t (2 * i.input.length + 2) i
    with hfPdef
  set fS : Iter → Nat × Iter := if c.Backwards then Iter.prevSecondary else Iter.nextSecondary
    with hfSdef
  have L1 := levelStep_stable c.t (¬c.Alternate = AltShifted) fP
      (fun i => iterN c.t i - i.pce) (fun i hi => hf_primary c.t hw i hi) hm0p
      ((0 : Int), a, b) f1 f2 ha hb
      (by show iterN c.t a + 1 < f1; omega) (by show iterN c.t a + 1 < f2; omega)
  obtain ⟨e1, p1, p2, p3, p4⟩ := L1
  rw [← e1]
  have p3' : iterN c.t (levelStep (¬c.Alternate = AltShifted) fP f1 ((0 : Int), a, b)).2.1 ≤
      iterN c.t a := p3
  have p4' : iterN c.t (levelStep (¬c.Alternate = AltShifted) fP f1 ((0 : Int), a, b)).2.2 ≤
      iterN c.t b := p4
  have L2 := levelStep_stable c.t (Level.Secondary ≤ c.Strength) fS
      (fun i => i.ce.length + 1 - i.pce) (fun i hi => hf_secondary c i hi) hm0s
      (levelStep (¬c.Alternate = AltShifted) fP f1 ((0 : Int), a, b)) f1 f2 p1 p2
      (by omega) (by omega)
  obtain ⟨e2, q1, q2, q3, q4⟩ := L2
  rw [← e2]
  have q3' : iterN c.t (levelStep (Level.Secondary ≤ c.Strength) fS f1
      (levelStep (¬c.Alternate = AltShifted) fP f1 ((0 : Int), a, b))).2.1 ≤ iterN c.t a :=
    le_trans q3 p3'
  have q4' : iterN c.t (levelStep (Level.Secondary ≤ c.Strength) fS f1
      (levelStep (¬c.Alternate = AltShifted) fP f1 ((0 : Int), a, b))).2.2 ≤ iterN c.t b :=
    le_trans q4 p4'
  have L3 := levelStep_stable c.t (Level.Tertiary ≤ c.Strength ∨ c.CaseLevel = true)
      Iter.nextTertiary
      (fun i => i.ce.length + 1 - i.pce) (fun i hi => hf_tertiary c.t i hi) hm0s
      (levelStep (Level.Secondary ≤ c.Strength) fS f1
        (levelStep (¬c.Alternate = AltShifted) fP f1 ((0 : Int), a, b))) f1 f2 q1 q2
      (by omega) (by omega)
  obtain ⟨e3, s1, s2, s3, s4⟩ := L3
  rw [← e3]
  have s3' : iterN c.t (levelStep (Level.Tertiary ≤ c.Strength ∨ c.CaseLevel = true)
      Iter.nextTertiary f1 (levelStep (Level.Secondary ≤ c.Strength) fS f1
        (levelStep (¬c.Alternate = AltShifted) fP f1 ((0 : Int), a, b)))).2.1 ≤ iterN c.t a :=
    le_trans s3 q3'
  have L4 := levelStep_stable c.t
      ((Level.Tertiary ≤ c.Strength ∨ c.CaseLevel = true) ∧ Level.Quaternary ≤ c.Strength)
      Iter.nextQuaternary
      (fun i => i.ce.length + 1 - i.pce) (fun i hi => hf_quaternary c.t i hi) hm0s
      (levelStep (Level.Tertiary ≤ c.Strength ∨ c.CaseLevel = true) Iter.nextTertiary f1
        (levelStep (Level.Secondary ≤ c.Strength) fS f1
          (levelStep (¬c.Alternate = AltShifted) fP f1 ((0 : Int), a, b)))) f1 f2 s1 s2
      (by omega) (by omega)
  rw [← L4.1]

theorem setInput_inv (i : Iter) (s : List Nat) : IterInv (Iter.setInput i s) := by
  unfold IterInv Iter.setInput Iter.reset
  simp

theorem compareStF_stable (c : Collator) (hw : WeigherOK c.t) (i0 i1 : Iter) (a b : List Nat)
    (f1 f2 : Nat)
    (h1 : cmpFuel c.t (Iter.setInput i0 a) (Iter.setInput i1 b) ≤ f1)
    (h2 : cmpFuel c.t (Iter.setInput i0 a) (Iter.setInput i1 b) ≤ f2) :
    c.CompareStF f1 i0 i1 a b = c.CompareStF f2 i0 i1 a b := by
  unfold Collator.CompareStF
  rw [compareIterF_stable c hw (Iter.setInput i0 a) (Iter.setInput i1 b)
    (setInput_inv i0 a) (setInput_inv i1 b) f1 f2 h1 h2]

theorem runNext_stable (w : Weigher) (hw : WeigherOK w) :
    ∀ (bnd : Nat) (i : Iter), muIter i ≤ bnd → ∀ f1 f2, muIter i < f1 → muIter i < f2 →
      runNext w f1 i = runNext w f2 i := by
  intro bnd
  induction bnd with
  | zero =>
    intro i hm f1 f2 h1 h2
    obtain ⟨g1, rfl⟩ : ∃ g, f1 = g + 1 := ⟨f1 - 1, by omega⟩
    obtain ⟨g2, rfl⟩ : ∃ g, f2 = g + 1 := ⟨f2 - 1, by omega⟩
    simp only [runNext]
    by_cases hb : (Iter.nextF w (i.input.length + 1) i).1 = true
    · have he : Iter.nextF w (i.input.length + 1) i =
          (true, (Iter.nextF w (i.input.length + 1) i).2) := by
        rw [← hb]
      have := nextF_true_mu w hw (i.input.length + 1) i _ he
      omega
    · rw [if_neg hb, if_neg hb]
  | succ bnd ih =>
    intro i hm f1 f2 h1 h2
    obtain ⟨g1, rfl⟩ : ∃ g, f1 = g + 1 := ⟨f1 - 1, by omega⟩
    obtain ⟨g2, rfl⟩ : ∃ g, f2 = g + 1 := ⟨f2 - 1, by omega⟩
    simp only [runNext]
    by_cases hb : (Iter.nextF w (i.input.length + 1) i).1 = true
    · rw [if_pos hb, if_pos hb]
      have he : Iter.nextF w (i.input.length + 1) i =
          (true, (Iter.nextF w (i.input.length + 1) i).2) := by
        rw [← hb]
      have hmu := nextF_true_mu w hw (i.input.length + 1) i _ he
      exact ih (Iter.nextF w (i.input.length + 1) i).2 (by omega) g1 g2 (by omega) (by omega)
    · rw [if_neg hb, if_neg hb]

theorem muIter_setInput (i : Iter) (s : List Nat) :
    muIter (Iter.setInput i s) = 2 * s.length := by
  unfold muIter Iter.setInput Iter.reset
  simp

/-- Claim C9: under the Weigher contract (at least one element emitted and
at least one byte consumed per call on non-empty input), the iteration
terminates: next() stabilises at fuel input-length + 1, and the Compare
and Key operations are insensitive to any sufficiently large loop fuel, so
each loop in the source reaches its exit condition on every finite input;
the model is total and raises no error. -/
theorem c9_termination (w : Weigher) (hw : WeigherOK w) :
    (∀ (i : Iter) (f : Nat), i.input.length < f →
        Iter.nextF w f i = Iter.nextF w (i.input.length + 1) i) ∧
      (∀ (c : Collator) (a b : List Nat) (f : Nat), c.t = w →
        cmpFuel w (Iter.setInput mkIter a) (Iter.setInput mkIter b) ≤ f →
        c.CompareF f a b = c.Compare a b) ∧
      (∀ (c : Collator) (s : List Nat) (f : Nat), c.t = w → 2 * s.length + 2 ≤ f →
        c.KeyF f s = c.Key s) := by
  refine ⟨?_, ?_, ?_⟩
  · intro i f hf
    exact nextF_stable w hw i.input.length i (le_refl _) f hf
  · intro c a b f hct hf
    subst hct
    unfold Collator.CompareF Collator.Compare Collator.CompareSt
    rw [compareStF_stable c hw mkIter mkIter a b f
      (cmpFuel c.t (Iter.setInput mkIter a) (Iter.setInput mkIter b)) hf (le_refl _)]
  · intro c s f hct hf
    subst hct
    unfold Collator.KeyF Collator.Key Collator.getColElems Collator.getColElemsF
    rw [runNext_stable c.t hw (muIter (Iter.setInput mkIter s)) (Iter.setInput mkIter s)
      (le_refl _) f (2 * s.length + 2) (by rw [muIter_setInput]; omega)
      (by rw [muIter_setInput]; omega)]

theorem wDeluge_ok : WeigherOK wDeluge := by
  intro s hs
  cases s with
  | nil => exact absurd rfl hs
  | cons b bs =>
    refine ⟨by simp [wDeluge], by simp [wDeluge], by simp [wDeluge]⟩

theorem c9_termination_witness :
    WeigherOK wDeluge ∧
      ((∀ (i : Iter) (f : Nat), i.input.length < f →
          Iter.nextF wDeluge f i = Iter.nextF wDeluge (i.input.length + 1) i) ∧
        (∀ (c : Collator) (a b : List Nat) (f : Nat), c.t = wDeluge →
          cmpFuel wDeluge (Iter.setInput mkIter a) (Iter.setInput mkIter b) ≤ f →
          c.CompareF f a b = c.Compare a b) ∧
        (∀ (c : Collator) (s : List Nat) (f : Nat), c.t = wDeluge → 2 * s.length + 2 ≤ f →
          c.KeyF f s = c.Key s)) :=
  ⟨wDeluge_ok, c9_termination wDeluge wDeluge_ok⟩
